import Mathlib

/-!
Verification development for the m3d engine.

The core component is the generational handle pool (the "packed freelist")
that backs every resource collection of the scene.  The header
`packed_freelist.h` itself is not among the provided sources — only its
instantiation site (`Scene`) is — so the pool is modelled from the
specification's data model and operation descriptions.  The swapchain
present-mode selection and the Vulkan debug report callback are embedded
from their sources (`VulkanSwapchain.hpp`, `vulkanDebug.cpp`).
-/

set_option linter.unusedVariables false

namespace M3d

/-- Modelled from the spec: the state of a pool slot (`packed_freelist.h` is
missing from the sources).  The slot's union holds, when occupied, the index
into dense storage of the value; when free, the index of the next free slot,
with `none` as the sentinel meaning the free list ends here. -/
inductive SlotState where
  | occupied (denseIndex : Nat)
  | free (next : Option Nat)
deriving DecidableEq, Repr

/-- Modelled from the spec: a slot of the packed freelist.  It has a fixed
identity, a generation counter starting at 0, and the occupied/free union. -/
structure Slot where
  generation : Nat
  state : SlotState
deriving DecidableEq, Repr

instance : Inhabited Slot := ⟨⟨0, SlotState.free none⟩⟩

/-- A handle: the pair `(index, generation)` that callers store.  `index`
addresses a slot; `generation` must match the slot's current generation. -/
structure Handle where
  index : Nat
  generation : Nat
deriving DecidableEq, Repr

/-- The error taxonomy of the pool: `InvalidHandle` is the only error kind. -/
inductive PoolError where
  | InvalidHandle
deriving DecidableEq, Repr

/-- Modelled from the spec: the packed freelist pool.  `slots` is the slot
table, `dense` the gap-free dense storage of values, `indexMap` the parallel
array mapping each dense position back to its owning slot index, and
`freeHead` the head of the free list threaded through the slots (`none` is
the empty-free-list sentinel). -/
structure packed_freelist (T : Type) where
  slots : List Slot
  dense : List T
  indexMap : List Nat
  freeHead : Option Nat

/-- A freshly constructed pool: no slots, no values, empty free list. -/
def emptyPool (T : Type) : packed_freelist T :=
  { slots := [], dense := [], indexMap := [], freeHead := none }

/-- The slot record at index `i` (default slot when out of range). -/
def slotAt {T : Type} (p : packed_freelist T) (i : Nat) : Slot :=
  p.slots.getD i default

/-- Modelled from the spec: handle validation.  A handle `(index, generation)`
is valid iff `index` is within range of the slot table, the slot at `index`
is occupied, and its stored generation equals the handle's generation. -/
def isValid {T : Type} (p : packed_freelist T) (h : Handle) : Bool :=
  match p.slots[h.index]? with
  | none => false
  | some s =>
    match s.state with
    | SlotState.occupied _ => s.generation == h.generation
    | SlotState.free _ => false

/-- Modelled from the spec: `get`.  Validates the handle; on success returns
the dense value the slot points to, otherwise fails with `InvalidHandle`. -/
def get {T : Type} [Inhabited T] (p : packed_freelist T) (h : Handle) :
    Except PoolError T :=
  match p.slots[h.index]? with
  | none => Except.error PoolError.InvalidHandle
  | some s =>
    match s.state with
    | SlotState.occupied d =>
      if s.generation = h.generation then Except.ok (p.dense.getD d default)
      else Except.error PoolError.InvalidHandle
    | SlotState.free _ => Except.error PoolError.InvalidHandle

/-- Modelled from the spec: `insert`.  If the free list is non-empty, pop its
head slot, mark it occupied with the new end-of-dense position, append the
value and an index-map entry pointing back to that slot, and return
`(slotIndex, slot.generation)`.  Otherwise grow the slot table by one entry
with generation 0 and proceed the same way. -/
def insert {T : Type} (p : packed_freelist T) (v : T) :
    Handle × packed_freelist T :=
  match p.freeHead with
  | some i =>
    let s := p.slots.getD i default
    let next : Option Nat :=
      match s.state with
      | SlotState.free n => n
      | SlotState.occupied _ => none  -- unreachable on well-formed pools
    (⟨i, s.generation⟩,
     { slots := p.slots.set i ⟨s.generation, SlotState.occupied p.dense.length⟩
       dense := p.dense ++ [v]
       indexMap := p.indexMap ++ [i]
       freeHead := next })
  | none =>
    (⟨p.slots.length, 0⟩,
     { slots := p.slots ++ [⟨0, SlotState.occupied p.dense.length⟩]
       dense := p.dense ++ [v]
       indexMap := p.indexMap ++ [p.slots.length]
       freeHead := none })

/-- Modelled from the spec: `erase`.  Re-validates exactly as `get`; if the
handle is invalid, returns `false` and leaves the pool untouched.  If valid:
when the owned dense position `d` is not the last, move the last dense value
into `d`, update the index-map entry at `d` to the slot that owned the last
position and that slot's dense-index to `d` (the swap-fixup happens before
the slot is released); then shrink dense storage by one, mark the slot free,
increment its generation, and push it onto the head of the free list. -/
def erase {T : Type} [Inhabited T] (p : packed_freelist T) (h : Handle) :
    Bool × packed_freelist T :=
  match p.slots[h.index]? with
  | none => (false, p)
  | some s =>
    match s.state with
    | SlotState.free _ => (false, p)
    | SlotState.occupied d =>
      if s.generation = h.generation then
        let last := p.dense.length - 1
        let step :=
          if d ≠ last then
            let lastOwner := p.indexMap.getD last 0
            (p.dense.set d (p.dense.getD last default),
             p.indexMap.set d lastOwner,
             p.slots.set lastOwner
               ⟨(p.slots.getD lastOwner default).generation,
                SlotState.occupied d⟩)
          else (p.dense, p.indexMap, p.slots)
        (true,
         { slots := step.2.2.set h.index
             ⟨s.generation + 1, SlotState.free p.freeHead⟩
           dense := step.1.dropLast
           indexMap := step.2.1.dropLast
           freeHead := some h.index })
      else (false, p)

/-- Modelled from the spec: `iterate`.  Produces every live value in current
dense order, each paired with its re-derived handle. -/
def iterate {T : Type} [Inhabited T] (p : packed_freelist T) :
    List (Handle × T) :=
  (List.range p.dense.length).map fun d =>
    let i := p.indexMap.getD d 0
    (⟨i, (p.slots.getD i default).generation⟩, p.dense.getD d default)

/-- Live-entry count (`size` query of the pool). -/
def size {T : Type} (p : packed_freelist T) : Nat := p.dense.length

/-- An operation issued against a pool by a caller. -/
inductive Op (T : Type) where
  | ins (v : T)
  | del (h : Handle)

/-- Apply one operation to the pool (the handle returned by an insert, or the
boolean returned by an erase, is dropped; only the state evolves). -/
def applyOp {T : Type} [Inhabited T] (p : packed_freelist T) :
    Op T → packed_freelist T
  | Op.ins v => (insert p v).2
  | Op.del h => (erase p h).2

/-- Run a list of operations against the pool, left to right. -/
def run {T : Type} [Inhabited T] (p : packed_freelist T) :
    List (Op T) → packed_freelist T
  | [] => p
  | o :: os => run (applyOp p o) os

/-- The handles issued by the inserts of an operation sequence, in order. -/
def issuedFrom {T : Type} [Inhabited T] (p : packed_freelist T) :
    List (Op T) → List Handle
  | [] => []
  | Op.ins v :: os => (insert p v).1 :: issuedFrom (insert p v).2 os
  | Op.del h :: os => issuedFrom (erase p h).2 os

/-- Number of inserts in an operation sequence (handles ever issued). -/
def numInserts {T : Type} : List (Op T) → Nat
  | [] => 0
  | Op.ins _ :: os => numInserts os + 1
  | Op.del _ :: os => numInserts os

/-- Number of erases of the sequence that succeed when run from `p`. -/
def numSuccErases {T : Type} [Inhabited T] (p : packed_freelist T) :
    List (Op T) → Nat
  | [] => 0
  | Op.ins v :: os => numSuccErases (insert p v).2 os
  | Op.del h :: os =>
    (if (erase p h).1 then 1 else 0) + numSuccErases (erase p h).2 os

/-- Whether a slot is occupied. -/
def Slot.isOccupied (s : Slot) : Bool :=
  match s.state with
  | SlotState.occupied _ => true
  | SlotState.free _ => false

/-- Number of occupied slots in a slot table. -/
def countOccupied (slots : List Slot) : Nat :=
  slots.countP Slot.isOccupied

/-! ### List access helper lemmas -/

theorem getD_lt {α : Type} (l : List α) {n : Nat} (d₀ : α) (h : n < l.length) :
    l[n]? = some (l.getD n d₀) := by
  rw [List.getD_eq_getElem?_getD, List.getElem?_eq_getElem h]
  rfl

theorem getD_ge {α : Type} (l : List α) {n : Nat} (d₀ : α) (h : l.length ≤ n) :
    l.getD n d₀ = d₀ := by
  rw [List.getD_eq_getElem?_getD, List.getElem?_eq_none h]
  rfl

theorem getD_set_self {α : Type} (l : List α) {i : Nat} (a d₀ : α)
    (h : i < l.length) : (l.set i a).getD i d₀ = a := by
  simp [List.getD_eq_getElem?_getD, List.getElem?_set, h]

theorem getD_set_ne {α : Type} (l : List α) {i j : Nat} (a d₀ : α)
    (h : i ≠ j) : (l.set i a).getD j d₀ = l.getD j d₀ := by
  simp [List.getD_eq_getElem?_getD, List.getElem?_set_ne h]

theorem getD_append_left {α : Type} (l l' : List α) {n : Nat} (d₀ : α)
    (h : n < l.length) : (l ++ l').getD n d₀ = l.getD n d₀ := by
  simp [List.getD_eq_getElem?_getD, List.getElem?_append_left h]

theorem getD_concat_length {α : Type} (l : List α) (a d₀ : α) :
    (l ++ [a]).getD l.length d₀ = a := by
  simp [List.getD_eq_getElem?_getD, List.getElem?_concat_length]

theorem getD_concat_gt {α : Type} (l : List α) {n : Nat} (a d₀ : α)
    (h : l.length < n) : (l ++ [a]).getD n d₀ = d₀ := by
  apply getD_ge
  simp
  omega

theorem getD_dropLast {α : Type} (l : List α) {n : Nat} (d₀ : α)
    (h : n < l.length - 1) : l.dropLast.getD n d₀ = l.getD n d₀ := by
  rw [List.getD_eq_getElem?_getD, List.getD_eq_getElem?_getD,
    List.getElem?_dropLast, if_pos h]

/-! ### The free-list chain and the well-formedness invariant -/

/-- The free list as a chain through the slot table: `Chain slots head fl`
says that starting from `head` and repeatedly following free-slot links, the
sequence of slots visited is exactly `fl`, ending at the sentinel. -/
inductive Chain (slots : List Slot) : Option Nat → List Nat → Prop where
  | nil : Chain slots none []
  | cons {i : Nat} {next : Option Nat} {rest : List Nat} :
      i < slots.length →
      (slots.getD i default).state = SlotState.free next →
      Chain slots next rest →
      i ∉ rest →
      Chain slots (some i) (i :: rest)

/-- Pool invariants (spec §3): the occupied-slot/dense-position mapping is a
bijection, the index map parallels dense storage, and the free list is a
duplicate-free chain enumerating exactly the free slots. -/
structure WF {T : Type} (p : packed_freelist T) : Prop where
  lenMap : p.indexMap.length = p.dense.length
  mapRange : ∀ d, d < p.dense.length → p.indexMap.getD d 0 < p.slots.length
  mapOwner : ∀ d, d < p.dense.length →
    (p.slots.getD (p.indexMap.getD d 0) default).state = SlotState.occupied d
  slotDense : ∀ j d, (p.slots.getD j default).state = SlotState.occupied d →
    d < p.dense.length ∧ p.indexMap.getD d 0 = j
  freeChain : ∃ fl, Chain p.slots p.freeHead fl ∧
    ∀ j, j ∈ fl ↔ j < p.slots.length ∧
      ∃ nx, (p.slots.getD j default).state = SlotState.free nx

theorem wf_empty (T : Type) : WF (emptyPool T) := by
  refine ⟨rfl, ?_, ?_, ?_, ⟨[], Chain.nil, ?_⟩⟩
  · intro d hd; simp [emptyPool] at hd
  · intro d hd; simp [emptyPool] at hd
  · intro j d h; simp [emptyPool, List.getD] at h
  · intro j; simp [emptyPool]

/-- An occupied slot (as seen through `getD`) is in range. -/
theorem occupied_lt {T : Type} (p : packed_freelist T) {j d : Nat}
    (h : (p.slots.getD j default).state = SlotState.occupied d) :
    j < p.slots.length := by
  by_contra hge
  rw [getD_ge _ _ (by omega)] at h
  cases h

/-- Rebuilding a chain over a slot table in which none of the chain's slots
changed (and whose length is unchanged). -/
theorem chain_congr {slots slots' : List Slot} {head : Option Nat}
    {fl : List Nat} (hc : Chain slots head fl)
    (hlen : slots'.length = slots.length)
    (hsame : ∀ j, j ∈ fl → slots'.getD j default = slots.getD j default) :
    Chain slots' head fl := by
  induction hc with
  | nil => exact Chain.nil
  | @cons i next rest hi hs _ hnot ih =>
    have hs' : (slots'.getD i default).state = SlotState.free next := by
      rw [hsame i (List.mem_cons_self i rest)]; exact hs
    exact Chain.cons (by omega) hs'
      (ih fun j hj => hsame j (List.mem_cons_of_mem i hj)) hnot

/-- Reduction of `insert` when the free list is non-empty: the head slot is
popped and reused; the returned handle carries its current generation. -/
theorem insert_pop_fst {T : Type} (p : packed_freelist T) (v : T) {i : Nat}
    (hf : p.freeHead = some i) :
    (insert p v).1 = ⟨i, (p.slots.getD i default).generation⟩ := by
  simp only [insert, hf]

theorem insert_pop_snd {T : Type} (p : packed_freelist T) (v : T) {i : Nat}
    {next : Option Nat} (hf : p.freeHead = some i)
    (hst : (p.slots.getD i default).state = SlotState.free next) :
    (insert p v).2 =
      { slots := p.slots.set i
          ⟨(p.slots.getD i default).generation,
           SlotState.occupied p.dense.length⟩
        dense := p.dense ++ [v]
        indexMap := p.indexMap ++ [i]
        freeHead := next } := by
  simp only [insert, hf, hst]

/-- Reduction of `insert` when the free list is empty: the slot table grows
by one slot with generation 0, and the returned handle has generation 0. -/
theorem insert_grow_fst {T : Type} (p : packed_freelist T) (v : T)
    (hf : p.freeHead = none) :
    (insert p v).1 = ⟨p.slots.length, 0⟩ := by
  simp only [insert, hf]

theorem insert_grow_snd {T : Type} (p : packed_freelist T) (v : T)
    (hf : p.freeHead = none) :
    (insert p v).2 =
      { slots := p.slots ++ [⟨0, SlotState.occupied p.dense.length⟩]
        dense := p.dense ++ [v]
        indexMap := p.indexMap ++ [p.slots.length]
        freeHead := none } := by
  simp only [insert, hf]

theorem wf_insert {T : Type} (p : packed_freelist T) (v : T) (hwf : WF p) :
    WF (insert p v).2 := by
  obtain ⟨fl, hch, hmem⟩ := hwf.freeChain
  cases hf : p.freeHead with
  | none =>
    rw [hf] at hch
    cases hch
    rw [insert_grow_snd p v hf]
    refine ⟨?_, ?_, ?_, ?_, ⟨[], Chain.nil, ?_⟩⟩ <;> dsimp only
    · simp [hwf.lenMap]
    · intro d hd
      simp only [List.length_append, List.length_cons, List.length_nil] at hd ⊢
      rcases Nat.lt_succ_iff_lt_or_eq.mp hd with hd' | rfl
      · have hdi : d < p.indexMap.length := hwf.lenMap.symm ▸ hd'
        rw [getD_append_left _ _ _ hdi]
        exact Nat.lt_succ_of_lt (hwf.mapRange d hd')
      · rw [← hwf.lenMap, getD_concat_length]
        omega
    · intro d hd
      simp only [List.length_append, List.length_cons, List.length_nil] at hd
      rcases Nat.lt_succ_iff_lt_or_eq.mp hd with hd' | rfl
      · have hdi : d < p.indexMap.length := hwf.lenMap.symm ▸ hd'
        rw [getD_append_left _ _ _ hdi,
          getD_append_left _ _ _ (hwf.mapRange d hd')]
        exact hwf.mapOwner d hd'
      · rw [← hwf.lenMap, getD_concat_length, hwf.lenMap, getD_concat_length]
    · intro j d hj
      simp only [List.length_append, List.length_cons, List.length_nil]
      rcases Nat.lt_trichotomy j p.slots.length with hlt | rfl | hgt
      · rw [getD_append_left _ _ _ hlt] at hj
        obtain ⟨hd, hmap⟩ := hwf.slotDense j d hj
        refine ⟨by omega, ?_⟩
        have hdi : d < p.indexMap.length := hwf.lenMap.symm ▸ hd
        rw [getD_append_left _ _ _ hdi]
        exact hmap
      · rw [getD_concat_length] at hj
        cases hj
        refine ⟨by omega, ?_⟩
        rw [← hwf.lenMap, getD_concat_length]
      · rw [getD_concat_gt _ _ _ hgt] at hj
        cases hj
    · intro j
      simp only [List.mem_nil_iff, false_iff, not_and]
      intro hj
      simp only [List.length_append, List.length_cons, List.length_nil] at hj
      rintro ⟨nx, hnx⟩
      rcases Nat.lt_trichotomy j p.slots.length with hlt | rfl | hgt
      · rw [getD_append_left _ _ _ hlt] at hnx
        exact absurd ((hmem j).mpr ⟨hlt, nx, hnx⟩) (List.not_mem_nil j)
      · rw [getD_concat_length] at hnx
        cases hnx
      · omega
  | some i =>
    rw [hf] at hch
    cases hch with
    | @cons _ next rest hi hst hrest hnot =>
      rw [insert_pop_snd p v hf hst]
      have hne : ∀ j d, (p.slots.getD j default).state = SlotState.occupied d →
          j ≠ i := by
        intro j d hjd heq
        rw [heq, hst] at hjd
        cases hjd
      refine ⟨?_, ?_, ?_, ?_, ⟨rest, ?_, ?_⟩⟩ <;> dsimp only
      · simp [hwf.lenMap]
      · intro d hd
        simp only [List.length_append, List.length_cons, List.length_nil,
          List.length_set] at hd ⊢
        rcases Nat.lt_succ_iff_lt_or_eq.mp hd with hd' | rfl
        · have hdi : d < p.indexMap.length := hwf.lenMap.symm ▸ hd'
          rw [getD_append_left _ _ _ hdi]
          exact hwf.mapRange d hd'
        · rw [← hwf.lenMap, getD_concat_length]
          exact hi
      · intro d hd
        simp only [List.length_append, List.length_cons, List.length_nil] at hd
        rcases Nat.lt_succ_iff_lt_or_eq.mp hd with hd' | rfl
        · have hdi : d < p.indexMap.length := hwf.lenMap.symm ▸ hd'
          rw [getD_append_left _ _ _ hdi]
          have hown := hwf.mapOwner d hd'
          rw [getD_set_ne _ _ _ (Ne.symm (hne _ _ hown))]
          exact hown
        · rw [← hwf.lenMap, getD_concat_length, getD_set_self _ _ _ hi,
            hwf.lenMap]
      · intro j d hj
        simp only [List.length_append, List.length_cons, List.length_nil]
        rcases eq_or_ne j i with rfl | hji
        · rw [getD_set_self _ _ _ hi] at hj
          cases hj
          refine ⟨by omega, ?_⟩
          rw [← hwf.lenMap, getD_concat_length]
        · rw [getD_set_ne _ _ _ (Ne.symm hji)] at hj
          obtain ⟨hd, hmap⟩ := hwf.slotDense j d hj
          refine ⟨by omega, ?_⟩
          have hdi : d < p.indexMap.length := hwf.lenMap.symm ▸ hd
          rw [getD_append_left _ _ _ hdi]
          exact hmap
      · refine chain_congr hrest (by simp) ?_
        intro j hj
        exact getD_set_ne _ _ _ fun hij => hnot (hij ▸ hj)
      · intro j
        simp only [List.length_set]
        constructor
        · intro hj
          have hj' := (hmem j).mp (List.mem_cons_of_mem i hj)
          obtain ⟨hlt, nx, hnx⟩ := hj'
          have hji : i ≠ j := fun hij => hnot (hij ▸ hj)
          rw [getD_set_ne _ _ _ hji]
          exact ⟨hlt, nx, hnx⟩
        · rintro ⟨hlt, nx, hnx⟩
          have hji : i ≠ j := by
            rintro rfl
            rw [getD_set_self _ _ _ hi] at hnx
            cases hnx
          rw [getD_set_ne _ _ _ hji] at hnx
          have := (hmem j).mpr ⟨hlt, nx, hnx⟩
          rcases List.mem_cons.mp this with rfl | hrest'
          · exact absurd rfl hji
          · exact hrest'

/-! ### Characterization of validity, `get` and `erase` on invalid handles -/

theorem isValid_true_iff {T : Type} (p : packed_freelist T) (h : Handle) :
    isValid p h = true ↔ h.index < p.slots.length ∧
      (∃ d, (p.slots.getD h.index default).state = SlotState.occupied d) ∧
      (p.slots.getD h.index default).generation = h.generation := by
  unfold isValid
  rcases Nat.lt_or_ge h.index p.slots.length with hlt | hge
  · rw [getD_lt p.slots default hlt]
    cases hst : (p.slots.getD h.index default).state with
    | occupied d =>
      simp only [hst, beq_iff_eq]
      constructor
      · intro hg; exact ⟨hlt, ⟨d, rfl⟩, hg⟩
      · rintro ⟨-, -, hg⟩; exact hg
    | free nx =>
      simp only [hst]
      constructor
      · intro hfalse; cases hfalse
      · rintro ⟨-, ⟨d, hd⟩, -⟩; cases hd
  · rw [List.getElem?_eq_none hge]
    constructor
    · intro hfalse; cases hfalse
    · rintro ⟨hlt, -, -⟩; omega

/-- A handle that fails validation: `get` fails with `InvalidHandle`. -/
theorem get_invalid {T : Type} [Inhabited T] (p : packed_freelist T)
    (h : Handle) (hv : isValid p h = false) :
    get p h = Except.error PoolError.InvalidHandle := by
  unfold get
  unfold isValid at hv
  split
  · rfl
  · rename_i s hs
    rw [hs] at hv
    dsimp only at hv
    split
    · rename_i d hd
      rw [hd] at hv
      dsimp only at hv
      rw [if_neg (by simpa using hv)]
    · rfl

/-- A valid handle: `get` returns the dense value the slot points to. -/
theorem get_valid {T : Type} [Inhabited T] (p : packed_freelist T)
    (h : Handle) {d : Nat} (hlt : h.index < p.slots.length)
    (hst : (p.slots.getD h.index default).state = SlotState.occupied d)
    (hgen : (p.slots.getD h.index default).generation = h.generation) :
    get p h = Except.ok (p.dense.getD d default) := by
  unfold get
  rw [getD_lt p.slots default hlt]
  dsimp only
  rw [hst]
  dsimp only
  rw [if_pos hgen]

/-- A handle that fails validation: `erase` returns `false` and leaves the
pool completely unchanged. -/
theorem erase_invalid {T : Type} [Inhabited T] (p : packed_freelist T)
    (h : Handle) (hv : isValid p h = false) :
    erase p h = (false, p) := by
  unfold erase
  unfold isValid at hv
  split
  · rfl
  · rename_i s hs
    rw [hs] at hv
    dsimp only at hv
    split
    · rfl
    · rename_i d hd
      rw [hd] at hv
      dsimp only at hv
      rw [if_neg (by simpa using hv)]

/-- Erase of a valid handle succeeds. -/
theorem erase_valid_fst {T : Type} [Inhabited T] (p : packed_freelist T)
    (h : Handle) {d : Nat} (hlt : h.index < p.slots.length)
    (hst : (p.slots.getD h.index default).state = SlotState.occupied d)
    (hgen : (p.slots.getD h.index default).generation = h.generation) :
    (erase p h).1 = true := by
  unfold erase
  rw [getD_lt p.slots default hlt]
  dsimp only
  rw [hst]
  dsimp only
  rw [if_pos hgen]

/-- Reduction of a successful `erase` when the erased value is already at the
last dense position: no swap-fixup is needed. -/
theorem erase_last_snd {T : Type} [Inhabited T] (p : packed_freelist T)
    (h : Handle) {d : Nat} (hlt : h.index < p.slots.length)
    (hst : (p.slots.getD h.index default).state = SlotState.occupied d)
    (hgen : (p.slots.getD h.index default).generation = h.generation)
    (hd : d = p.dense.length - 1) :
    (erase p h).2 =
      { slots := p.slots.set h.index
          ⟨h.generation + 1, SlotState.free p.freeHead⟩
        dense := p.dense.dropLast
        indexMap := p.indexMap.dropLast
        freeHead := some h.index } := by
  unfold erase
  rw [getD_lt p.slots default hlt]
  dsimp only
  rw [hst]
  dsimp only
  rw [hgen, if_pos rfl]
  dsimp only
  rw [if_neg (by omega : ¬d ≠ p.dense.length - 1)]

/-- Reduction of a successful `erase` when the erased value is not last: the
last dense value is moved into its position, the index-map entry and the
moved value's owning slot are fixed up, then the slot is released. -/
theorem erase_swap_snd {T : Type} [Inhabited T] (p : packed_freelist T)
    (h : Handle) {d : Nat} (hlt : h.index < p.slots.length)
    (hst : (p.slots.getD h.index default).state = SlotState.occupied d)
    (hgen : (p.slots.getD h.index default).generation = h.generation)
    (hd : d ≠ p.dense.length - 1) :
    (erase p h).2 =
      { slots := (p.slots.set (p.indexMap.getD (p.dense.length - 1) 0)
          ⟨(p.slots.getD (p.indexMap.getD (p.dense.length - 1) 0)
              default).generation,
           SlotState.occupied d⟩).set h.index
          ⟨h.generation + 1, SlotState.free p.freeHead⟩
        dense := (p.dense.set d
          (p.dense.getD (p.dense.length - 1) default)).dropLast
        indexMap := (p.indexMap.set d
          (p.indexMap.getD (p.dense.length - 1) 0)).dropLast
        freeHead := some h.index } := by
  unfold erase
  rw [getD_lt p.slots default hlt]
  dsimp only
  rw [hst]
  dsimp only
  rw [hgen, if_pos rfl]
  dsimp only
  rw [if_pos hd]

/-- Releasing an occupied slot `i` onto the free list: the new chain is the
old chain with `i` consed on, and it enumerates exactly the free slots of the
updated table `slots2`. -/
theorem chain_release (slots2 : List Slot) (i dI : Nat) {slots : List Slot}
    {head : Option Nat} {fl : List Nat}
    (hch : Chain slots head fl)
    (hmem : ∀ j, j ∈ fl ↔ j < slots.length ∧
      ∃ nx, (slots.getD j default).state = SlotState.free nx)
    (hlen : slots2.length = slots.length)
    (hi : i < slots.length)
    (hiold : (slots.getD i default).state = SlotState.occupied dI)
    (hinew : (slots2.getD i default).state = SlotState.free head)
    (hsame : ∀ j, j ∈ fl → slots2.getD j default = slots.getD j default)
    (hfree : ∀ j nx, j ≠ i →
      (slots2.getD j default).state = SlotState.free nx →
      ∃ nx2, (slots.getD j default).state = SlotState.free nx2) :
    Chain slots2 (some i) (i :: fl) ∧
      ∀ j, j ∈ i :: fl ↔ j < slots2.length ∧
        ∃ nx, (slots2.getD j default).state = SlotState.free nx := by
  have hinotfl : i ∉ fl := by
    intro hmem2
    obtain ⟨-, nx, hnx⟩ := (hmem i).mp hmem2
    rw [hiold] at hnx
    cases hnx
  refine ⟨Chain.cons (by omega) hinew (chain_congr hch hlen hsame) hinotfl, ?_⟩
  intro j
  constructor
  · intro hj
    rcases List.mem_cons.mp hj with rfl | hj2
    · exact ⟨by omega, head, hinew⟩
    · obtain ⟨hjl, nx, hnx⟩ := (hmem j).mp hj2
      rw [← hsame j hj2] at hnx
      exact ⟨by omega, nx, hnx⟩
  · rintro ⟨hjl, nx, hnx⟩
    rcases eq_or_ne j i with rfl | hji
    · exact List.mem_cons_self j fl
    · obtain ⟨nx2, hnx2⟩ := hfree j nx hji hnx
      exact List.mem_cons_of_mem i ((hmem j).mpr ⟨by omega, nx2, hnx2⟩)

theorem wf_erase {T : Type} [Inhabited T] (p : packed_freelist T) (h : Handle)
    (hwf : WF p) : WF (erase p h).2 := by
  by_cases hv : isValid p h = true
  · obtain ⟨hlt, ⟨d, hst⟩, hgen⟩ := (isValid_true_iff p h).mp hv
    obtain ⟨fl, hch, hmem⟩ := hwf.freeChain
    obtain ⟨hdm, hmap⟩ := hwf.slotDense h.index d hst
    by_cases hlast : d = p.dense.length - 1
    · rw [erase_last_snd p h hlt hst hgen hlast]
      have hrel := chain_release
        (p.slots.set h.index ⟨h.generation + 1, SlotState.free p.freeHead⟩)
        h.index d hch hmem
        (by simp) hlt hst
        (by rw [getD_set_self _ _ _ hlt])
        (by
          intro j hj
          obtain ⟨-, nx, hnx⟩ := (hmem j).mp hj
          refine getD_set_ne _ _ _ ?_
          intro hij
          rw [← hij, hst] at hnx
          cases hnx)
        (by
          intro j nx hji hnx
          rw [getD_set_ne _ _ _ (Ne.symm hji)] at hnx
          exact ⟨nx, hnx⟩)
      refine ⟨?_, ?_, ?_, ?_, ⟨h.index :: fl, hrel.1, hrel.2⟩⟩ <;> dsimp only
      · simp [hwf.lenMap]
      · intro d2 hd2
        simp only [List.length_dropLast, List.length_set] at hd2 ⊢
        have hd3 : d2 < p.indexMap.length - 1 := by
          rw [hwf.lenMap]; exact hd2
        rw [getD_dropLast _ _ hd3]
        exact hwf.mapRange d2 (by omega)
      · intro d2 hd2
        simp only [List.length_dropLast] at hd2
        have hd3 : d2 < p.indexMap.length - 1 := by
          rw [hwf.lenMap]; exact hd2
        rw [getD_dropLast _ _ hd3]
        have hown := hwf.mapOwner d2 (by omega)
        have hne : p.indexMap.getD d2 0 ≠ h.index := by
          intro heq
          rw [heq, hst] at hown
          cases hown
          omega
        rw [getD_set_ne _ _ _ (Ne.symm hne)]
        exact hown
      · intro j d2 hj
        simp only [List.length_dropLast]
        have hjne : j ≠ h.index := by
          intro heq
          rw [heq, getD_set_self _ _ _ hlt] at hj
          cases hj
        rw [getD_set_ne _ _ _ (Ne.symm hjne)] at hj
        obtain ⟨hd2m, hmap2⟩ := hwf.slotDense j d2 hj
        have hd2ne : d2 ≠ p.dense.length - 1 := by
          intro heq
          rw [heq, ← hlast, hmap] at hmap2
          exact hjne hmap2.symm
        refine ⟨by omega, ?_⟩
        have hd3 : d2 < p.indexMap.length - 1 := by rw [hwf.lenMap]; omega
        rw [getD_dropLast _ _ hd3]
        exact hmap2
    · -- swap case
      have hm1 : p.dense.length - 1 < p.dense.length := by omega
      have hdlt : d < p.dense.length - 1 := by omega
      have hLlt : p.indexMap.getD (p.dense.length - 1) 0 < p.slots.length :=
        hwf.mapRange _ hm1
      have hLst : (p.slots.getD (p.indexMap.getD (p.dense.length - 1) 0)
          default).state = SlotState.occupied (p.dense.length - 1) :=
        hwf.mapOwner _ hm1
      have hLne : p.indexMap.getD (p.dense.length - 1) 0 ≠ h.index := by
        intro heq
        rw [heq, hst] at hLst
        cases hLst
        omega
      rw [erase_swap_snd p h hlt hst hgen hlast]
      have hrel := chain_release
        ((p.slots.set (p.indexMap.getD (p.dense.length - 1) 0)
          ⟨(p.slots.getD (p.indexMap.getD (p.dense.length - 1) 0)
              default).generation,
           SlotState.occupied d⟩).set h.index
          ⟨h.generation + 1, SlotState.free p.freeHead⟩)
        h.index d hch hmem
        (by simp) hlt hst
        (by rw [getD_set_self _ _ _ (by simpa using hlt)])
        (by
          intro j hj
          obtain ⟨-, nx, hnx⟩ := (hmem j).mp hj
          have hjh : h.index ≠ j := by
            intro hij
            rw [← hij, hst] at hnx
            cases hnx
          have hjL : p.indexMap.getD (p.dense.length - 1) 0 ≠ j := by
            intro hij
            rw [← hij, hLst] at hnx
            cases hnx
          rw [getD_set_ne _ _ _ hjh, getD_set_ne _ _ _ hjL])
        (by
          intro j nx hji hnx
          rw [getD_set_ne _ _ _ (Ne.symm hji)] at hnx
          rcases eq_or_ne (p.indexMap.getD (p.dense.length - 1) 0) j
            with heq | hLj
          · rw [← heq, getD_set_self _ _ _ hLlt] at hnx
            cases hnx
          · rw [getD_set_ne _ _ _ hLj] at hnx
            exact ⟨nx, hnx⟩)
      refine ⟨?_, ?_, ?_, ?_, ⟨h.index :: fl, hrel.1, hrel.2⟩⟩ <;> dsimp only
      · simp [hwf.lenMap]
      · intro d2 hd2
        simp only [List.length_dropLast, List.length_set] at hd2 ⊢
        have hd3 : d2 < (p.indexMap.set d
            (p.indexMap.getD (p.dense.length - 1) 0)).length - 1 := by
          simp only [List.length_set]
          rw [hwf.lenMap]; exact hd2
        rw [getD_dropLast _ _ hd3]
        rcases eq_or_ne d d2 with rfl | hdd2
        · rw [getD_set_self _ _ _ (by rw [hwf.lenMap]; omega)]
          exact hLlt
        · rw [getD_set_ne _ _ _ hdd2]
          exact hwf.mapRange d2 (by omega)
      · intro d2 hd2
        simp only [List.length_dropLast, List.length_set] at hd2
        have hd3 : d2 < (p.indexMap.set d
            (p.indexMap.getD (p.dense.length - 1) 0)).length - 1 := by
          simp only [List.length_set]
          rw [hwf.lenMap]; exact hd2
        rw [getD_dropLast _ _ hd3]
        rcases eq_or_ne d d2 with rfl | hdd2
        · rw [getD_set_self _ _ _ (by rw [hwf.lenMap]; omega)]
          rw [getD_set_ne _ _ _ (Ne.symm hLne), getD_set_self _ _ _ hLlt]
        · rw [getD_set_ne _ _ _ hdd2]
          have hown := hwf.mapOwner d2 (by omega)
          have hne1 : p.indexMap.getD d2 0 ≠ h.index := by
            intro heq
            rw [heq, hst] at hown
            cases hown
            exact hdd2 rfl
          have hne2 : p.indexMap.getD d2 0 ≠
              p.indexMap.getD (p.dense.length - 1) 0 := by
            intro heq
            rw [heq, hLst] at hown
            cases hown
            omega
          rw [getD_set_ne _ _ _ (Ne.symm hne1),
            getD_set_ne _ _ _ (Ne.symm hne2)]
          exact hown
      · intro j d2 hj
        simp only [List.length_dropLast, List.length_set]
        have hjne : j ≠ h.index := by
          intro heq
          rw [heq, getD_set_self _ _ _ (by simpa using hlt)] at hj
          cases hj
        rw [getD_set_ne _ _ _ (Ne.symm hjne)] at hj
        rcases eq_or_ne (p.indexMap.getD (p.dense.length - 1) 0) j
          with heq | hLj
        · rw [← heq, getD_set_self _ _ _ hLlt] at hj
          have hd2d : d2 = d := by
            have h2 : SlotState.occupied d = SlotState.occupied d2 := hj
            cases h2
            rfl
          subst hd2d
          refine ⟨by omega, ?_⟩
          have hd3 : d2 < (p.indexMap.set d2
              (p.indexMap.getD (p.dense.length - 1) 0)).length - 1 := by
            simp only [List.length_set]
            rw [hwf.lenMap]; omega
          rw [getD_dropLast _ _ hd3,
            getD_set_self _ _ _ (by rw [hwf.lenMap]; omega)]
          exact heq
        · rw [getD_set_ne _ _ _ hLj] at hj
          obtain ⟨hd2m, hmap2⟩ := hwf.slotDense j d2 hj
          have hd2ne : d2 ≠ p.dense.length - 1 := by
            intro heq
            rw [heq] at hmap2
            exact hLj hmap2
          have hd2d : d2 ≠ d := by
            intro heq
            rw [heq, hmap] at hmap2
            exact hjne hmap2.symm
          refine ⟨by omega, ?_⟩
          have hd3 : d2 < (p.indexMap.set d
              (p.indexMap.getD (p.dense.length - 1) 0)).length - 1 := by
            simp only [List.length_set]
            rw [hwf.lenMap]; omega
          rw [getD_dropLast _ _ hd3, getD_set_ne _ _ _ (by omega)]
          exact hmap2
  · rw [erase_invalid p h (by simpa using hv)]
    exact hwf

/-! ### Preservation of well-formedness and validity along operations -/

theorem getD_set_out {α : Type} (l : List α) {i : Nat} (a d₀ : α) (j : Nat)
    (h : l.length ≤ i) : (l.set i a).getD j d₀ = l.getD j d₀ := by
  rw [List.getD_eq_getElem?_getD, List.getD_eq_getElem?_getD, List.getElem?_set]
  rcases eq_or_ne i j with rfl | hij
  · rw [if_pos rfl, if_neg (by omega), List.getElem?_eq_none (by omega)]
  · rw [if_neg hij]

theorem wf_applyOp {T : Type} [Inhabited T] (p : packed_freelist T) (o : Op T)
    (hwf : WF p) : WF (applyOp p o) := by
  cases o with
  | ins v => exact wf_insert p v hwf
  | del h => exact wf_erase p h hwf

theorem wf_run {T : Type} [Inhabited T] (p : packed_freelist T)
    (ops : List (Op T)) (hwf : WF p) : WF (run p ops) := by
  induction ops generalizing p with
  | nil => exact hwf
  | cons o os ih => exact ih _ (wf_applyOp p o hwf)

/-- Operation `insert` never touches the generation of any slot (as read through
`getD`; a brand-new slot starts at generation 0, the default). -/
theorem insert_gen {T : Type} (p : packed_freelist T) (v : T) (j : Nat) :
    ((insert p v).2.slots.getD j default).generation =
      (p.slots.getD j default).generation := by
  cases hf : p.freeHead with
  | none =>
    rw [insert_grow_snd p v hf]
    dsimp only
    rcases Nat.lt_trichotomy j p.slots.length with hlt | rfl | hgt
    · rw [getD_append_left _ _ _ hlt]
    · rw [getD_concat_length, getD_ge _ _ (le_refl _)]
      rfl
    · rw [getD_concat_gt _ _ _ hgt, getD_ge _ _ (by omega)]
  | some i =>
    unfold insert
    rw [hf]
    dsimp only
    rcases Nat.lt_or_ge i p.slots.length with hi | hi
    · rcases eq_or_ne i j with rfl | hij
      · rw [getD_set_self _ _ _ hi]
      · rw [getD_set_ne _ _ _ hij]
    · rw [getD_set_out _ _ _ _ hi]

/-- A successful `erase` increments the erased slot's generation by exactly 1
and changes no other slot's generation. -/
theorem erase_gen_success {T : Type} [Inhabited T] (p : packed_freelist T)
    (h : Handle) (hv : isValid p h = true) (j : Nat) :
    ((erase p h).2.slots.getD j default).generation =
      (if j = h.index then (p.slots.getD j default).generation + 1
       else (p.slots.getD j default).generation) := by
  obtain ⟨hlt, ⟨d, hst⟩, hgen⟩ := (isValid_true_iff p h).mp hv
  by_cases hlast : d = p.dense.length - 1
  · rw [erase_last_snd p h hlt hst hgen hlast]
    dsimp only
    rcases eq_or_ne j h.index with rfl | hij
    · rw [if_pos rfl, getD_set_self _ _ _ hlt, hgen]
    · rw [if_neg hij, getD_set_ne _ _ _ (Ne.symm hij)]
  · rw [erase_swap_snd p h hlt hst hgen hlast]
    dsimp only
    rcases eq_or_ne j h.index with rfl | hij
    · rw [if_pos rfl, getD_set_self _ _ _ (by simpa using hlt), hgen]
    · rw [if_neg hij, getD_set_ne _ _ _ (Ne.symm hij)]
      rcases eq_or_ne (p.indexMap.getD (p.dense.length - 1) 0) j
        with rfl | hLj
      · rcases Nat.lt_or_ge (p.indexMap.getD (p.dense.length - 1) 0)
          p.slots.length with hL | hL
        · rw [getD_set_self _ _ _ hL]
        · rw [getD_set_out _ _ _ _ hL]
      · rw [getD_set_ne _ _ _ hLj]

/-- The generation of every slot is monotone under any single operation. -/
theorem gen_le_applyOp {T : Type} [Inhabited T] (p : packed_freelist T)
    (o : Op T) (j : Nat) :
    (p.slots.getD j default).generation ≤
      ((applyOp p o).slots.getD j default).generation := by
  cases o with
  | ins v => rw [applyOp, insert_gen]
  | del h =>
    by_cases hv : isValid p h = true
    · rw [applyOp, erase_gen_success p h hv j]
      split <;> omega
    · rw [applyOp, erase_invalid p h (by simpa using hv)]

/-- The generation of every slot is monotone along any run. -/
theorem gen_le_run {T : Type} [Inhabited T] (p : packed_freelist T)
    (ops : List (Op T)) (j : Nat) :
    (p.slots.getD j default).generation ≤
      ((run p ops).slots.getD j default).generation := by
  induction ops generalizing p with
  | nil => exact le_refl _
  | cons o os ih =>
    exact le_trans (gen_le_applyOp p o j) (ih (applyOp p o))

/-- Operation `insert` keeps every already-valid handle valid (the popped free slot and
the appended fresh slot cannot be the slot of a valid handle). -/
theorem isValid_insert {T : Type} (p : packed_freelist T) (v : T) (h : Handle)
    (hwf : WF p) (hv : isValid p h = true) :
    isValid (insert p v).2 h = true := by
  obtain ⟨hlt, ⟨d, hst⟩, hgen⟩ := (isValid_true_iff p h).mp hv
  cases hf : p.freeHead with
  | none =>
    rw [insert_grow_snd p v hf]
    apply (isValid_true_iff _ h).mpr
    dsimp only
    rw [getD_append_left _ _ _ hlt]
    refine ⟨by simp; omega, ⟨d, hst⟩, hgen⟩
  | some i =>
    obtain ⟨fl, hch, hmem⟩ := hwf.freeChain
    rw [hf] at hch
    cases hch with
    | @cons _ next rest hi hsti hrest hnot =>
      rw [insert_pop_snd p v hf hsti]
      apply (isValid_true_iff _ h).mpr
      dsimp only
      have hne : i ≠ h.index := by
        intro heq
        rw [heq, hst] at hsti
        cases hsti
      rw [getD_set_ne _ _ _ hne]
      exact ⟨by simpa using hlt, ⟨d, hst⟩, hgen⟩

/-- Erasing one valid handle keeps every other valid handle valid. -/
theorem isValid_erase_ne {T : Type} [Inhabited T] (p : packed_freelist T)
    (h h₂ : Handle) (hwf : WF p) (hv : isValid p h = true) (hne : h₂ ≠ h) :
    isValid (erase p h₂).2 h = true := by
  by_cases hv₂ : isValid p h₂ = true
  · obtain ⟨hlt, ⟨d, hst⟩, hgen⟩ := (isValid_true_iff p h).mp hv
    obtain ⟨hlt₂, ⟨d₂, hst₂⟩, hgen₂⟩ := (isValid_true_iff p h₂).mp hv₂
    have hix : h₂.index ≠ h.index := by
      intro heq
      rw [heq] at hst₂ hgen₂
      apply hne
      have h1 : h₂.generation = h.generation := by rw [← hgen₂, hgen]
      cases h₂
      cases h
      simp only at heq h1
      rw [heq, h1]
    by_cases hlast : d₂ = p.dense.length - 1
    · rw [erase_last_snd p h₂ hlt₂ hst₂ hgen₂ hlast]
      apply (isValid_true_iff _ h).mpr
      dsimp only
      rw [getD_set_ne _ _ _ hix]
      exact ⟨by simpa using hlt, ⟨d, hst⟩, hgen⟩
    · rw [erase_swap_snd p h₂ hlt₂ hst₂ hgen₂ hlast]
      apply (isValid_true_iff _ h).mpr
      dsimp only
      rw [getD_set_ne _ _ _ hix]
      rcases eq_or_ne (p.indexMap.getD (p.dense.length - 1) 0) h.index
        with heq | hLne
      · obtain ⟨hd₂m, -⟩ := hwf.slotDense h₂.index d₂ hst₂
        rw [← heq, getD_set_self _ _ _ (hwf.mapRange _ (by omega))]
        refine ⟨?_, ⟨d₂, rfl⟩, ?_⟩
        · simp only [List.length_set]
          exact hwf.mapRange _ (by omega)
        · rw [heq]
          exact hgen
      · rw [getD_set_ne _ _ _ hLne]
        exact ⟨by simpa using hlt, ⟨d, hst⟩, hgen⟩
  · rw [erase_invalid p h₂ (by simpa using hv₂)]
    exact hv

/-- Operation `erase` succeeds exactly on valid handles. -/
theorem erase_fst {T : Type} [Inhabited T] (p : packed_freelist T)
    (h : Handle) : (erase p h).1 = isValid p h := by
  by_cases hv : isValid p h = true
  · obtain ⟨hlt, ⟨d, hst⟩, hgen⟩ := (isValid_true_iff p h).mp hv
    rw [erase_valid_fst p h hlt hst hgen, hv]
  · rw [erase_invalid p h (by simpa using hv)]
    exact ((Bool.not_eq_true _).mp hv).symm

/-- A handle whose generation is strictly below the slot's current
generation can never validate. -/
theorem isValid_false_of_gen_lt {T : Type} (p : packed_freelist T)
    (h : Handle)
    (hgt : h.generation < (p.slots.getD h.index default).generation) :
    isValid p h = false := by
  by_contra htrue
  obtain ⟨-, -, hgen⟩ :=
    (isValid_true_iff p h).mp (by simpa using htrue)
  omega

/-- A valid handle stays valid along any run that never erases it. -/
theorem isValid_run {T : Type} [Inhabited T] (p : packed_freelist T)
    (h : Handle) (ops : List (Op T)) (hwf : WF p)
    (hv : isValid p h = true) (hno : Op.del h ∉ ops) :
    isValid (run p ops) h = true := by
  induction ops generalizing p with
  | nil => exact hv
  | cons o os ih =>
    have hno₂ : Op.del h ∉ os := fun hmem => hno (List.mem_cons_of_mem o hmem)
    cases o with
    | ins v =>
      exact ih _ (wf_insert p v hwf) (isValid_insert p v h hwf hv) hno₂
    | del h₂ =>
      have hne : h₂ ≠ h := by
        rintro rfl
        exact hno (List.mem_cons_self _ _)
      exact ih _ (wf_erase p h₂ hwf) (isValid_erase_ne p h h₂ hwf hv hne) hno₂

/-- The handle returned by `insert` validates in the new pool. -/
theorem isValid_insert_self {T : Type} (p : packed_freelist T) (v : T)
    (hwf : WF p) : isValid (insert p v).2 (insert p v).1 = true := by
  cases hf : p.freeHead with
  | none =>
    rw [insert_grow_fst p v hf, insert_grow_snd p v hf]
    apply (isValid_true_iff _ _).mpr
    dsimp only
    rw [getD_concat_length]
    exact ⟨by simp, ⟨p.dense.length, rfl⟩, rfl⟩
  | some i =>
    obtain ⟨fl, hch, hmem⟩ := hwf.freeChain
    rw [hf] at hch
    cases hch with
    | @cons _ next rest hi hsti hrest hnot =>
      rw [insert_pop_fst p v hf, insert_pop_snd p v hf hsti]
      apply (isValid_true_iff _ _).mpr
      dsimp only
      rw [getD_set_self _ _ _ hi]
      exact ⟨by simpa using hi, ⟨p.dense.length, rfl⟩, rfl⟩

/-- Round trip: `get` after `insert` returns the inserted value. -/
theorem get_insert {T : Type} [Inhabited T] (p : packed_freelist T) (v : T)
    (hwf : WF p) : get (insert p v).2 (insert p v).1 = Except.ok v := by
  cases hf : p.freeHead with
  | none =>
    rw [insert_grow_fst p v hf, insert_grow_snd p v hf]
    have hres := get_valid
      ({ slots := p.slots ++ [⟨0, SlotState.occupied p.dense.length⟩]
         dense := p.dense ++ [v]
         indexMap := p.indexMap ++ [p.slots.length]
         freeHead := none } : packed_freelist T)
      ⟨p.slots.length, 0⟩
      (by dsimp only; simp)
      (by dsimp only; rw [getD_concat_length])
      (by dsimp only; rw [getD_concat_length])
    rw [hres]
    dsimp only
    rw [getD_concat_length]
  | some i =>
    obtain ⟨fl, hch, hmem⟩ := hwf.freeChain
    rw [hf] at hch
    cases hch with
    | @cons _ next rest hi hsti hrest hnot =>
      rw [insert_pop_fst p v hf, insert_pop_snd p v hf hsti]
      have hres := get_valid
        ({ slots := p.slots.set i
             ⟨(p.slots.getD i default).generation,
              SlotState.occupied p.dense.length⟩
           dense := p.dense ++ [v]
           indexMap := p.indexMap ++ [i]
           freeHead := next } : packed_freelist T)
        ⟨i, (p.slots.getD i default).generation⟩
        (by dsimp only; simpa using hi)
        (by dsimp only; rw [getD_set_self _ _ _ hi])
        (by dsimp only; rw [getD_set_self _ _ _ hi])
      rw [hres]
      dsimp only
      rw [getD_concat_length]

/-! ### Counting: dense size tracks the number of occupied slots -/

theorem slot_occupied_lt (slots : List Slot) {j d : Nat}
    (h : (slots.getD j default).state = SlotState.occupied d) :
    j < slots.length := by
  by_contra hge
  rw [getD_ge _ _ (by omega)] at h
  cases h

theorem countOccupied_set (slots : List Slot) {i : Nat} (s : Slot)
    (h : i < slots.length) :
    countOccupied (slots.set i s) =
      countOccupied slots
        - (if (slots.getD i default).isOccupied then 1 else 0)
        + (if s.isOccupied then 1 else 0) := by
  unfold countOccupied
  rw [List.countP_set Slot.isOccupied slots i s h]
  congr 2
  rw [List.getD_eq_getElem?_getD, List.getElem?_eq_getElem h]
  rfl

theorem countOccupied_concat (slots : List Slot) (s : Slot) :
    countOccupied (slots ++ [s]) =
      countOccupied slots + (if s.isOccupied then 1 else 0) := by
  unfold countOccupied
  rw [List.countP_append]
  congr 1
  rw [List.countP_cons]
  simp

theorem countOccupied_pos (slots : List Slot) {j d : Nat}
    (h : (slots.getD j default).state = SlotState.occupied d) :
    0 < countOccupied slots := by
  have hj := slot_occupied_lt slots h
  unfold countOccupied
  apply List.countP_pos_iff.mpr
  refine ⟨slots.getD j default, ?_, ?_⟩
  · have hsome : slots[j]? = some (slots.getD j default) := getD_lt slots default hj
    exact List.getElem?_mem hsome
  · unfold Slot.isOccupied
    rw [h]

theorem insert_counts {T : Type} (p : packed_freelist T) (v : T)
    (hwf : WF p) :
    (insert p v).2.dense.length = p.dense.length + 1 ∧
    countOccupied (insert p v).2.slots = countOccupied p.slots + 1 := by
  cases hf : p.freeHead with
  | none =>
    rw [insert_grow_snd p v hf]
    refine ⟨by simp, ?_⟩
    dsimp only
    rw [countOccupied_concat]
    rfl
  | some i =>
    obtain ⟨fl, hch, hmem⟩ := hwf.freeChain
    rw [hf] at hch
    cases hch with
    | @cons _ next rest hi hsti hrest hnot =>
      rw [insert_pop_snd p v hf hsti]
      refine ⟨by simp, ?_⟩
      dsimp only
      rw [countOccupied_set _ _ hi]
      have hfree : (p.slots.getD i default).isOccupied = false := by
        unfold Slot.isOccupied
        rw [hsti]
      rw [hfree]
      simp [Slot.isOccupied]

theorem erase_counts {T : Type} [Inhabited T] (p : packed_freelist T)
    (h : Handle) (hwf : WF p) (hv : isValid p h = true) :
    (erase p h).2.dense.length + 1 = p.dense.length ∧
    countOccupied (erase p h).2.slots + 1 = countOccupied p.slots := by
  obtain ⟨hlt, ⟨d, hst⟩, hgen⟩ := (isValid_true_iff p h).mp hv
  obtain ⟨hdm, hmap⟩ := hwf.slotDense h.index d hst
  have hocc : (p.slots.getD h.index default).isOccupied = true := by
    unfold Slot.isOccupied
    rw [hst]
  have hpos := countOccupied_pos p.slots hst
  by_cases hlast : d = p.dense.length - 1
  · rw [erase_last_snd p h hlt hst hgen hlast]
    refine ⟨by dsimp only; rw [List.length_dropLast]; omega, ?_⟩
    dsimp only
    rw [countOccupied_set _ _ hlt, hocc]
    simp [Slot.isOccupied]
    omega
  · rw [erase_swap_snd p h hlt hst hgen hlast]
    refine ⟨by dsimp only; rw [List.length_dropLast, List.length_set]; omega, ?_⟩
    dsimp only
    have hLlt : p.indexMap.getD (p.dense.length - 1) 0 < p.slots.length :=
      hwf.mapRange _ (by omega)
    have hLst := hwf.mapOwner (p.dense.length - 1) (by omega)
    have hLocc : (p.slots.getD (p.indexMap.getD (p.dense.length - 1) 0)
        default).isOccupied = true := by
      unfold Slot.isOccupied
      rw [hLst]
    have hLne : p.indexMap.getD (p.dense.length - 1) 0 ≠ h.index := by
      intro heq
      rw [heq, hst] at hLst
      cases hLst
      omega
    rw [countOccupied_set _ _ (by simpa using hlt)]
    rw [countOccupied_set _ _ hLlt, hLocc]
    rw [getD_set_ne _ _ _ hLne, hocc]
    simp [Slot.isOccupied]
    omega

theorem dense_counts_run {T : Type} [Inhabited T] (p : packed_freelist T)
    (ops : List (Op T)) (hwf : WF p) :
    (run p ops).dense.length + numSuccErases p ops =
      p.dense.length + numInserts ops ∧
    countOccupied (run p ops).slots + numSuccErases p ops =
      countOccupied p.slots + numInserts ops := by
  induction ops generalizing p with
  | nil => exact ⟨rfl, rfl⟩
  | cons o os ih =>
    cases o with
    | ins v =>
      obtain ⟨ih1, ih2⟩ := ih (insert p v).2 (wf_insert p v hwf)
      obtain ⟨hc1, hc2⟩ := insert_counts p v hwf
      refine ⟨?_, ?_⟩ <;>
        simp only [run, applyOp, numSuccErases, numInserts] <;> omega
    | del h =>
      by_cases hv : isValid p h = true
      · obtain ⟨ih1, ih2⟩ := ih (erase p h).2 (wf_erase p h hwf)
        obtain ⟨hc1, hc2⟩ := erase_counts p h hwf hv
        have hfst : (erase p h).1 = true := by rw [erase_fst, hv]
        refine ⟨?_, ?_⟩ <;>
          simp only [run, applyOp, numSuccErases, numInserts, hfst,
            if_pos] <;> omega
      · have heq := erase_invalid p h (by simpa using hv)
        have hfst : (erase p h).1 = false := by rw [heq]
        have hsnd : (erase p h).2 = p := by rw [heq]
        obtain ⟨ih1, ih2⟩ := ih p hwf
        refine ⟨?_, ?_⟩ <;>
          simp only [run, applyOp, numSuccErases, numInserts, hfst, hsnd,
            Bool.false_eq_true, if_false] <;> omega

/-! ### No handle is ever issued twice -/

/-- All handles in `hs` are "stale or current" with respect to `p`: their
generation never exceeds the slot's, and is strictly below it when the slot
is free. -/
def HandleBound {T : Type} (p : packed_freelist T) (hs : List Handle) : Prop :=
  ∀ h, h ∈ hs → h.index < p.slots.length ∧
    (∀ d, (p.slots.getD h.index default).state = SlotState.occupied d →
      h.generation ≤ (p.slots.getD h.index default).generation) ∧
    (∀ nx, (p.slots.getD h.index default).state = SlotState.free nx →
      h.generation < (p.slots.getD h.index default).generation)

theorem handleBound_insert {T : Type} (p : packed_freelist T) (v : T)
    (hwf : WF p) (hs : List Handle) (hb : HandleBound p hs) :
    HandleBound (insert p v).2 ((insert p v).1 :: hs) := by
  cases hf : p.freeHead with
  | none =>
    rw [insert_grow_fst p v hf, insert_grow_snd p v hf]
    intro h hmem
    dsimp only
    rcases List.mem_cons.mp hmem with rfl | hmem₂
    · refine ⟨by simp, ?_, ?_⟩ <;> dsimp only <;> rw [getD_concat_length]
      · intro d _; exact Nat.le_refl 0
      · intro nx hnx; cases hnx
    · obtain ⟨hlt, hocc, hfree⟩ := hb h hmem₂
      refine ⟨by simp; omega, ?_, ?_⟩ <;> rw [getD_append_left _ _ _ hlt]
      · exact hocc
      · exact hfree
  | some i =>
    obtain ⟨fl, hch, hmem⟩ := hwf.freeChain
    rw [hf] at hch
    cases hch with
    | @cons _ next rest hi hsti hrest hnot =>
      rw [insert_pop_fst p v hf, insert_pop_snd p v hf hsti]
      intro h hmem₂
      dsimp only
      rcases List.mem_cons.mp hmem₂ with rfl | hmem₃
      · refine ⟨by simpa using hi, ?_, ?_⟩ <;> dsimp only <;>
          rw [getD_set_self _ _ _ hi]
        · intro d _; exact Nat.le_refl _
        · intro nx hnx; cases hnx
      · obtain ⟨hlt, hocc, hfree⟩ := hb h hmem₃
        refine ⟨by simpa using hlt, ?_, ?_⟩
        · intro d hd
          rcases eq_or_ne i h.index with heq | hne
          · rw [← heq, getD_set_self _ _ _ hi] at hd ⊢
            have hcur := hfree next (heq ▸ hsti)
            rw [← heq] at hcur
            dsimp only
            omega
          · rw [getD_set_ne _ _ _ hne] at hd ⊢
            exact hocc d hd
        · intro nx hnx
          rcases eq_or_ne i h.index with heq | hne
          · rw [← heq, getD_set_self _ _ _ hi] at hnx
            cases hnx
          · rw [getD_set_ne _ _ _ hne] at hnx ⊢
            exact hfree nx hnx

theorem handleBound_erase {T : Type} [Inhabited T] (p : packed_freelist T)
    (h₂ : Handle) (hwf : WF p) (hs : List Handle) (hb : HandleBound p hs) :
    HandleBound (erase p h₂).2 hs := by
  by_cases hv : isValid p h₂ = true
  · obtain ⟨hlt, ⟨d, hst⟩, hgen⟩ := (isValid_true_iff p h₂).mp hv
    intro h hmem
    obtain ⟨hlt₁, hocc, hfree⟩ := hb h hmem
    have hgens := erase_gen_success p h₂ hv h.index
    by_cases hix : h.index = h₂.index
    · -- erased slot: now free with bumped generation
      rw [if_pos hix] at hgens
      have hb₁ := hocc d (hix ▸ hst)
      refine ⟨?_, ?_, ?_⟩
      · have hl := slot_occupied_lt _ (hix ▸ hst)
        by_cases hlast : d = p.dense.length - 1
        · rw [erase_last_snd p h₂ hlt hst hgen hlast]
          simpa using hl
        · rw [erase_swap_snd p h₂ hlt hst hgen hlast]
          simpa using hl
      · intro d₂ hd₂
        -- the erased slot is free after a successful erase
        exfalso
        have hfree₂ : ((erase p h₂).2.slots.getD h.index default).state =
            SlotState.free p.freeHead := by
          by_cases hlast : d = p.dense.length - 1
          · rw [erase_last_snd p h₂ hlt hst hgen hlast]
            dsimp only
            rw [hix, getD_set_self _ _ _ hlt]
          · rw [erase_swap_snd p h₂ hlt hst hgen hlast]
            dsimp only
            rw [hix, getD_set_self _ _ _ (by simpa using hlt)]
        rw [hfree₂] at hd₂
        cases hd₂
      · intro nx hnx
        rw [hgens, hix]
        rw [hix] at hb₁
        omega
    · -- untouched or swap-fixed slot: generation unchanged
      rw [if_neg hix] at hgens
      refine ⟨?_, ?_, ?_⟩
      · by_cases hlast : d = p.dense.length - 1
        · rw [erase_last_snd p h₂ hlt hst hgen hlast]
          simpa using hlt₁
        · rw [erase_swap_snd p h₂ hlt hst hgen hlast]
          simpa using hlt₁
      · intro d₂ hd₂
        rw [hgens]
        -- the slot was occupied before the erase as well
        by_cases hlast : d = p.dense.length - 1
        · rw [erase_last_snd p h₂ hlt hst hgen hlast] at hd₂
          dsimp only at hd₂
          rw [getD_set_ne _ _ _ (Ne.symm hix)] at hd₂
          exact hocc d₂ hd₂
        · rw [erase_swap_snd p h₂ hlt hst hgen hlast] at hd₂
          dsimp only at hd₂
          rw [getD_set_ne _ _ _ (Ne.symm hix)] at hd₂
          rcases eq_or_ne (p.indexMap.getD (p.dense.length - 1) 0) h.index
            with heq | hLne
          · have hLst := hwf.mapOwner (p.dense.length - 1)
              (by obtain ⟨hdm, -⟩ := hwf.slotDense h₂.index d hst; omega)
            exact hocc _ (heq ▸ hLst)
          · rw [getD_set_ne _ _ _ hLne] at hd₂
            exact hocc d₂ hd₂
      · intro nx hnx
        rw [hgens]
        by_cases hlast : d = p.dense.length - 1
        · rw [erase_last_snd p h₂ hlt hst hgen hlast] at hnx
          dsimp only at hnx
          rw [getD_set_ne _ _ _ (Ne.symm hix)] at hnx
          exact hfree nx hnx
        · rw [erase_swap_snd p h₂ hlt hst hgen hlast] at hnx
          dsimp only at hnx
          rw [getD_set_ne _ _ _ (Ne.symm hix)] at hnx
          rcases eq_or_ne (p.indexMap.getD (p.dense.length - 1) 0) h.index
            with heq | hLne
          · rw [← heq, getD_set_self _ _ _ (hwf.mapRange _
              (by obtain ⟨hdm, -⟩ := hwf.slotDense h₂.index d hst; omega))]
              at hnx
            cases hnx
          · rw [getD_set_ne _ _ _ hLne] at hnx
            exact hfree nx hnx
  · rw [erase_invalid p h₂ (by simpa using hv)]
    exact hb

theorem handleBound_run {T : Type} [Inhabited T] (p : packed_freelist T)
    (ops : List (Op T)) (hs : List Handle) (hwf : WF p)
    (hb : HandleBound p hs) :
    HandleBound (run p ops) (issuedFrom p ops ++ hs) := by
  induction ops generalizing p hs with
  | nil => exact hb
  | cons o os ih =>
    cases o with
    | ins v =>
      have hres := ih (insert p v).2 ((insert p v).1 :: hs)
        (wf_insert p v hwf) (handleBound_insert p v hwf hs hb)
      intro h hmem
      apply hres h
      simp only [issuedFrom, run, applyOp, List.cons_append,
        List.mem_cons, List.mem_append] at hmem ⊢
      tauto
    | del h₂ =>
      have hres := ih (erase p h₂).2 hs (wf_erase p h₂ hwf)
        (handleBound_erase p h₂ hwf hs hb)
      intro h hmem
      apply hres h
      simp only [issuedFrom, run, applyOp, List.mem_append] at hmem ⊢
      exact hmem

/-- A freshly issued handle was never issued before. -/
theorem insert_fresh {T : Type} [Inhabited T] (ops : List (Op T)) (v : T) :
    (insert (run (emptyPool T) ops) v).1 ∉ issuedFrom (emptyPool T) ops := by
  intro hmem
  have hwf := wf_run (emptyPool T) ops (wf_empty T)
  have hb := handleBound_run (emptyPool T) ops [] (wf_empty T)
    (by intro h hh; cases hh)
  obtain ⟨hlt, hocc, hfree⟩ := hb _ (by simpa using hmem)
  cases hf : (run (emptyPool T) ops).freeHead with
  | none =>
    rw [insert_grow_fst _ v hf] at hlt
    dsimp only at hlt
    omega
  | some i =>
    obtain ⟨fl, hch, hmemf⟩ := hwf.freeChain
    rw [hf] at hch
    cases hch with
    | @cons _ next rest hi hsti hrest hnot =>
      rw [insert_pop_fst _ v hf] at hfree
      dsimp only at hfree
      have := hfree next hsti
      omega

/-! ### Claim theorems -/

/-- C1: a handle `(index, generation)` is valid iff `index` is within the
slot-table range, the slot at `index` is occupied, and the slot's stored
generation equals the handle's generation; `get` returns the stored value
exactly when the handle is valid, and fails with `InvalidHandle` (a value,
never a crash) exactly when it is not. -/
theorem handle_validation_spec {T : Type} [Inhabited T]
    (p : packed_freelist T) (h : Handle) :
    (isValid p h = true ↔ h.index < p.slots.length ∧
      (∃ d, (p.slots.getD h.index default).state = SlotState.occupied d) ∧
      (p.slots.getD h.index default).generation = h.generation) ∧
    ((∃ v, get p h = Except.ok v) ↔ isValid p h = true) ∧
    (get p h = Except.error PoolError.InvalidHandle ↔
      isValid p h = false) := by
  refine ⟨isValid_true_iff p h, ⟨?_, ?_⟩, ⟨?_, ?_⟩⟩
  · rintro ⟨v, hok⟩
    by_contra hne
    rw [get_invalid p h (by simpa using hne)] at hok
    cases hok
  · intro hv
    obtain ⟨hlt, ⟨d, hst⟩, hgen⟩ := (isValid_true_iff p h).mp hv
    exact ⟨_, get_valid p h hlt hst hgen⟩
  · intro herr
    by_contra hne
    have hv : isValid p h = true := by
      cases hbool : isValid p h
      · exact absurd hbool hne
      · rfl
    obtain ⟨hlt, ⟨d, hst⟩, hgen⟩ := (isValid_true_iff p h).mp hv
    rw [get_valid p h hlt hst hgen] at herr
    cases herr
  · exact get_invalid p h

/-- C2: a handle returned by an insert can be erased successfully after any
interleaving of operations that does not erase it; after that one successful
erase, every later `get` and `erase` of the handle fails with
`InvalidHandle`, whatever further operations are interleaved. -/
theorem erase_once_spec {T : Type} [Inhabited T] (p : packed_freelist T)
    (v : T) (h : Handle) (q : packed_freelist T) (ops : List (Op T))
    (hwf : WF p) (hins : insert p v = (h, q)) (hno : Op.del h ∉ ops) :
    (erase (run q ops) h).1 = true ∧
    ∀ ops₂ : List (Op T),
      get (run (erase (run q ops) h).2 ops₂) h =
        Except.error PoolError.InvalidHandle ∧
      (erase (run (erase (run q ops) h).2 ops₂) h).1 = false := by
  have hh : h = (insert p v).1 := by rw [hins]
  have hq : q = (insert p v).2 := by rw [hins]
  subst hh
  subst hq
  have hwf₁ := wf_insert p v hwf
  have hv₁ := isValid_insert_self p v hwf
  have hvq := isValid_run (insert p v).2 (insert p v).1 ops hwf₁ hv₁ hno
  constructor
  · rw [erase_fst, hvq]
  · intro ops₂
    obtain ⟨hlt, ⟨d, hst⟩, hgen⟩ := (isValid_true_iff _ _).mp hvq
    have hbump := erase_gen_success (run (insert p v).2 ops)
      (insert p v).1 hvq (insert p v).1.index
    rw [if_pos rfl, hgen] at hbump
    have hmono := gen_le_run
      (erase (run (insert p v).2 ops) (insert p v).1).2 ops₂
      (insert p v).1.index
    rw [hbump] at hmono
    have hinv := isValid_false_of_gen_lt
      (run (erase (run (insert p v).2 ops) (insert p v).1).2 ops₂)
      (insert p v).1 (by omega)
    exact ⟨get_invalid _ _ hinv, by rw [erase_fst, hinv]⟩

theorem erase_once_witness :
    (erase (run (insert (emptyPool Nat) 5).2 []) ⟨0, 0⟩).1 = true ∧
    get (run (erase (run (insert (emptyPool Nat) 5).2 []) ⟨0, 0⟩).2 [])
      ⟨0, 0⟩ = Except.error PoolError.InvalidHandle :=
  ⟨(erase_once_spec (emptyPool Nat) 5 ⟨0, 0⟩ (insert (emptyPool Nat) 5).2 []
      (wf_empty Nat) rfl (by simp)).1,
   ((erase_once_spec (emptyPool Nat) 5 ⟨0, 0⟩ (insert (emptyPool Nat) 5).2 []
      (wf_empty Nat) rfl (by simp)).2 []).1⟩

/-- C3: inserting a value and immediately getting the returned handle
succeeds and yields the inserted value. -/
theorem insert_get_roundtrip_spec {T : Type} [Inhabited T]
    (p : packed_freelist T) (v : T) (hwf : WF p) :
    get (insert p v).2 (insert p v).1 = Except.ok v :=
  get_insert p v hwf

theorem insert_get_roundtrip_witness :
    get (insert (emptyPool Nat) 5).2 (insert (emptyPool Nat) 5).1 =
      Except.ok 5 :=
  insert_get_roundtrip_spec (emptyPool Nat) 5 (wf_empty Nat)

/-- C4: erasing a valid handle whose value occupies a non-last dense
position (the pool holding at least two live entries) succeeds, moves the
last dense value into that position, updates the index map and the moved
value's owning slot, shrinks dense storage by one, and afterwards `get` on
the handle that referenced the formerly-last element still succeeds and
returns that same value. -/
theorem swap_removal_spec {T : Type} [Inhabited T] (p : packed_freelist T)
    (h hL : Handle) (d : Nat) (hwf : WF p)
    (htwo : 2 ≤ p.dense.length)
    (hv : isValid p h = true)
    (hvL : isValid p hL = true)
    (hd : (p.slots.getD h.index default).state = SlotState.occupied d)
    (hdL : (p.slots.getD hL.index default).state =
      SlotState.occupied (p.dense.length - 1))
    (hne : d ≠ p.dense.length - 1) :
    (erase p h).1 = true ∧
    (erase p h).2.dense.length = p.dense.length - 1 ∧
    (erase p h).2.indexMap.getD d 0 = hL.index ∧
    ((erase p h).2.slots.getD hL.index default).state =
      SlotState.occupied d ∧
    get (erase p h).2 hL =
      Except.ok (p.dense.getD (p.dense.length - 1) default) := by
  obtain ⟨hlt, -, hgen⟩ := (isValid_true_iff p h).mp hv
  obtain ⟨hltL, -, hgenL⟩ := (isValid_true_iff p hL).mp hvL
  obtain ⟨hdm, hmap⟩ := hwf.slotDense h.index d hd
  obtain ⟨-, hmapL⟩ := hwf.slotDense hL.index _ hdL
  have hixne : hL.index ≠ h.index := by
    intro heq
    have hcontra : d = p.dense.length - 1 := by
      rw [heq, hd] at hdL
      cases hdL
      rfl
    exact hne hcontra
  refine ⟨erase_valid_fst p h hlt hd hgen, ?_, ?_, ?_, ?_⟩
  · rw [erase_swap_snd p h hlt hd hgen hne]
    dsimp only
    rw [List.length_dropLast, List.length_set]
  · rw [erase_swap_snd p h hlt hd hgen hne, hmapL]
    dsimp only
    have hd3 : d < (p.indexMap.set d hL.index).length - 1 := by
      simp only [List.length_set]
      rw [hwf.lenMap]
      omega
    rw [getD_dropLast _ _ hd3,
      getD_set_self _ _ _ (by rw [hwf.lenMap]; omega)]
  · rw [erase_swap_snd p h hlt hd hgen hne, hmapL]
    dsimp only
    rw [getD_set_ne _ _ _ (Ne.symm hixne), getD_set_self _ _ _ hltL]
  · rw [erase_swap_snd p h hlt hd hgen hne, hmapL]
    have hres := get_valid
      ({ slots := (p.slots.set hL.index
           ⟨(p.slots.getD hL.index default).generation,
            SlotState.occupied d⟩).set h.index
           ⟨h.generation + 1, SlotState.free p.freeHead⟩
         dense := (p.dense.set d
           (p.dense.getD (p.dense.length - 1) default)).dropLast
         indexMap := (p.indexMap.set d hL.index).dropLast
         freeHead := some h.index } : packed_freelist T)
      hL
      (by dsimp only; simpa using hltL)
      (by
        dsimp only
        rw [getD_set_ne _ _ _ (Ne.symm hixne), getD_set_self _ _ _ hltL])
      (by
        dsimp only
        rw [getD_set_ne _ _ _ (Ne.symm hixne), getD_set_self _ _ _ hltL]
        exact hgenL)
    rw [hres]
    dsimp only
    have hd3 : d < (p.dense.set d
        (p.dense.getD (p.dense.length - 1) default)).length - 1 := by
      simp only [List.length_set]
      omega
    rw [getD_dropLast _ _ hd3, getD_set_self _ _ _ (by omega)]

theorem swap_removal_witness :
    (erase (insert (insert (emptyPool Nat) 10).2 20).2 ⟨0, 0⟩).1 = true ∧
    get (erase (insert (insert (emptyPool Nat) 10).2 20).2 ⟨0, 0⟩).2
      ⟨1, 0⟩ = Except.ok 20 := by
  have hres := swap_removal_spec (insert (insert (emptyPool Nat) 10).2 20).2
    ⟨0, 0⟩ ⟨1, 0⟩ 0
    (wf_insert _ _ (wf_insert _ _ (wf_empty Nat)))
    (by decide) (by decide) (by decide) (by decide) (by decide) (by decide)
  refine ⟨hres.1, ?_⟩
  rw [hres.2.2.2.2]
  rfl

/-- C5: every slot's generation starts at 0 and is incremented by exactly 1
on each occupied-to-free transition, changing at no other time; consequently
an insert never returns a handle equal to one issued earlier. -/
theorem generation_spec {T : Type} [Inhabited T] (p : packed_freelist T)
    (v : T) (h : Handle) (j : Nat) :
    (p.freeHead = none → (insert p v).1.generation = 0) ∧
    ((insert p v).2.slots.getD j default).generation =
      (p.slots.getD j default).generation ∧
    (isValid p h = false → (erase p h).2 = p) ∧
    (isValid p h = true →
      ((erase p h).2.slots.getD j default).generation =
        (if j = h.index then (p.slots.getD j default).generation + 1
         else (p.slots.getD j default).generation)) ∧
    ∀ ops : List (Op T), ∀ w : T,
      (insert (run (emptyPool T) ops) w).1 ∉
        issuedFrom (emptyPool T) ops := by
  refine ⟨?_, insert_gen p v j, ?_,
    fun hv => erase_gen_success p h hv j,
    fun ops w => insert_fresh ops w⟩
  · intro hf
    rw [insert_grow_fst p v hf]
  · intro hv
    rw [erase_invalid p h hv]

theorem generation_witness :
    (insert (emptyPool Nat) 5).1.generation = 0 ∧
    ((erase (insert (emptyPool Nat) 5).2 ⟨0, 0⟩).2.slots.getD 0
        default).generation =
      ((insert (emptyPool Nat) 5).2.slots.getD 0 default).generation + 1 ∧
    (insert (run (emptyPool Nat) [Op.ins 5, Op.del ⟨0, 0⟩]) 7).1 ∉
      issuedFrom (emptyPool Nat) [Op.ins 5, Op.del ⟨0, 0⟩] := by
  refine ⟨(generation_spec (emptyPool Nat) 5 ⟨0, 0⟩ 0).1 rfl, ?_, ?_⟩
  · have hres := (generation_spec (insert (emptyPool Nat) 5).2 5
      ⟨0, 0⟩ 0).2.2.2.1 (by decide)
    rw [hres, if_pos rfl]
  · exact (generation_spec (emptyPool Nat) 5 ⟨0, 0⟩ 0).2.2.2.2
      [Op.ins 5, Op.del ⟨0, 0⟩] 7

/-- C6: a failed `erase` (invalid handle, including the second of two erase
calls on the same handle) returns `false` and leaves the pool completely
unchanged. -/
theorem failed_erase_noop_spec {T : Type} [Inhabited T]
    (p : packed_freelist T) (h : Handle) :
    ((erase p h).1 = false ↔ isValid p h = false) ∧
    (isValid p h = false → erase p h = (false, p)) ∧
    (∀ q, erase p h = (true, q) → erase q h = (false, q)) := by
  refine ⟨?_, erase_invalid p h, ?_⟩
  · rw [erase_fst]
  · intro q herase
    have hv : isValid p h = true := by
      rw [← erase_fst p h, herase]
    have hq : q = (erase p h).2 := by rw [herase]
    subst hq
    have hbump := erase_gen_success p h hv h.index
    rw [if_pos rfl] at hbump
    obtain ⟨-, -, hgen⟩ := (isValid_true_iff p h).mp hv
    have hinv : isValid (erase p h).2 h = false :=
      isValid_false_of_gen_lt _ h (by rw [hbump]; omega)
    exact erase_invalid _ h hinv

theorem failed_erase_noop_witness :
    erase (emptyPool Nat) ⟨0, 0⟩ = (false, emptyPool Nat) :=
  (failed_erase_noop_spec (emptyPool Nat) ⟨0, 0⟩).2.1 (by decide)

/-- C7: after any operation sequence from the empty pool, dense storage has
no gaps (its size equals the number of occupied slots) and the number of
values produced by `iterate` equals the number of handles ever issued by
insert minus the number of successful erases. -/
theorem packing_invariant_spec {T : Type} [Inhabited T]
    (ops : List (Op T)) :
    (run (emptyPool T) ops).dense.length =
      countOccupied (run (emptyPool T) ops).slots ∧
    (iterate (run (emptyPool T) ops)).length =
      numInserts ops - numSuccErases (emptyPool T) ops := by
  obtain ⟨h1, h2⟩ := dense_counts_run (emptyPool T) ops (wf_empty T)
  have hlen : (iterate (run (emptyPool T) ops)).length =
      (run (emptyPool T) ops).dense.length := by
    unfold iterate
    simp
  have he1 : (emptyPool T).dense.length = 0 := rfl
  have he2 : countOccupied (emptyPool T).slots = 0 := rfl
  constructor
  · omega
  · rw [hlen]
    omega

/-! ### The scene and its six pool instantiations (Scene.hpp) -/

/-- External SDK texture object (`vkext::VulkanTexture`, declared in
`vulkanTextureLoader.hpp`, outside the provided sources); modelled opaquely
as a handle value. -/
structure VulkanTexture where
  handle : Nat

/-- Modelled from the engine's math headers (`Matrix.h`, not among the
sources): a 3-component vector. -/
structure Vector3 where
  x : Float
  y : Float
  z : Float

/-- Modelled from `Quaternion.h` (not among the sources): a quaternion. -/
structure Quaternion where
  x : Float
  y : Float
  z : Float
  w : Float

/-- Struct `DiffuseMap` from Scene.hpp. -/
structure DiffuseMap where
  texture : VulkanTexture

/-- Struct `Material` from Scene.hpp. -/
structure Material where
  name : String
  ambient : Float × Float × Float
  diffuse : Float × Float × Float
  specular : Float × Float × Float
  shininess : Float
  diffuseMapId : Nat

/-- Struct `Mesh::Slice` from Scene.hpp. -/
structure MeshSlice where
  indexOffset : Int
  triangleCount : Int

/-- Struct `Mesh` from Scene.hpp (`vk::CommandBuffer` draw commands are external
SDK handles, modelled opaquely as numbers). -/
structure Mesh where
  name : String
  slices : List MeshSlice
  vertices : List Float
  uvs : List Float
  normals : List Float
  indices : List Nat
  drawCommands : List Nat
  materialIds : List Nat

/-- Struct `Transform` from Scene.hpp. -/
structure Transform where
  position : Vector3
  scale : Vector3
  rotation : Quaternion

/-- Struct `Instance` from Scene.hpp: cross-references into the mesh and transform
pools. -/
structure Instance where
  meshId : Nat
  transformId : Nat

/-- Struct `Camera` from Scene.hpp. -/
structure Camera where
  eye : Vector3
  target : Vector3
  up : Vector3
  fovY : Float
  aspect : Float
  nearZ : Float

/-- Class `Scene` from Scene.hpp: six independently-typed instantiations of the
same `packed_freelist` design, one per resource kind. -/
structure Scene where
  loadPath : String
  diffuseMaps : packed_freelist DiffuseMap
  materials : packed_freelist Material
  meshes : packed_freelist Mesh
  transforms : packed_freelist Transform
  instances : packed_freelist Instance
  cameras : packed_freelist Camera
  mainCameraID : Nat

/-- C8: the scene exposes exactly six independent instantiations of the
same pool design, one per resource kind; they share the one generic
`insert` operation (and likewise `get`/`erase`/`iterate`), and mutating any
one pool leaves the other five (and the rest of the scene) unchanged. -/
theorem scene_six_pools_spec (s : Scene) (dm : DiffuseMap) (mt : Material)
    (me : Mesh) (tr : Transform) (ist : Instance) (cam : Camera) :
    (let s₁ : Scene := { s with diffuseMaps := (insert s.diffuseMaps dm).2 }
     s₁.materials = s.materials ∧ s₁.meshes = s.meshes ∧
     s₁.transforms = s.transforms ∧ s₁.instances = s.instances ∧
     s₁.cameras = s.cameras) ∧
    (let s₂ : Scene := { s with materials := (insert s.materials mt).2 }
     s₂.diffuseMaps = s.diffuseMaps ∧ s₂.meshes = s.meshes ∧
     s₂.transforms = s.transforms ∧ s₂.instances = s.instances ∧
     s₂.cameras = s.cameras) ∧
    (let s₃ : Scene := { s with meshes := (insert s.meshes me).2 }
     s₃.diffuseMaps = s.diffuseMaps ∧ s₃.materials = s.materials ∧
     s₃.transforms = s.transforms ∧ s₃.instances = s.instances ∧
     s₃.cameras = s.cameras) ∧
    (let s₄ : Scene := { s with transforms := (insert s.transforms tr).2 }
     s₄.diffuseMaps = s.diffuseMaps ∧ s₄.materials = s.materials ∧
     s₄.meshes = s.meshes ∧ s₄.instances = s.instances ∧
     s₄.cameras = s.cameras) ∧
    (let s₅ : Scene := { s with instances := (insert s.instances ist).2 }
     s₅.diffuseMaps = s.diffuseMaps ∧ s₅.materials = s.materials ∧
     s₅.meshes = s.meshes ∧ s₅.transforms = s.transforms ∧
     s₅.cameras = s.cameras) ∧
    (let s₆ : Scene := { s with cameras := (insert s.cameras cam).2 }
     s₆.diffuseMaps = s.diffuseMaps ∧ s₆.materials = s.materials ∧
     s₆.meshes = s.meshes ∧ s₆.transforms = s.transforms ∧
     s₆.instances = s.instances) := by
  refine ⟨?_, ?_, ?_, ?_, ?_, ?_⟩ <;>
    exact ⟨rfl, rfl, rfl, rfl, rfl⟩

/-! ### Swapchain present-mode selection (VulkanSwapchain.hpp) -/

/-- The Vulkan present modes relevant to `VulkanSwapChain::create`. -/
inductive PresentModeKHR where
  | eImmediate
  | eMailbox
  | eFifo
  | eFifoRelaxed
deriving DecidableEq, Repr

/-- The present-mode search loop of `VulkanSwapChain::create`: scan the
available modes; on finding Mailbox, take it and stop; otherwise remember
Immediate when seen and keep scanning. -/
def selectPresentMode : PresentModeKHR → List PresentModeKHR →
    PresentModeKHR
  | cur, [] => cur
  | cur, m :: rest =>
    if m = PresentModeKHR.eMailbox then PresentModeKHR.eMailbox
    else if cur ≠ PresentModeKHR.eMailbox ∧ m = PresentModeKHR.eImmediate
    then selectPresentMode PresentModeKHR.eImmediate rest
    else selectPresentMode cur rest

/-- The present mode chosen by `VulkanSwapChain::create`: FIFO when vsync is
requested (FIFO is also the initial value); otherwise the result of the
search loop over the surface's available modes. -/
def swapchainPresentMode (presentModes : List PresentModeKHR)
    (vsync : Bool) : PresentModeKHR :=
  if vsync then PresentModeKHR.eFifo
  else selectPresentMode PresentModeKHR.eFifo presentModes

theorem selectPresentMode_eq (modes : List PresentModeKHR)
    (cur : PresentModeKHR) (hcur : cur ≠ PresentModeKHR.eMailbox) :
    selectPresentMode cur modes =
      (if PresentModeKHR.eMailbox ∈ modes then PresentModeKHR.eMailbox
       else if PresentModeKHR.eImmediate ∈ modes then
         PresentModeKHR.eImmediate
       else cur) := by
  induction modes generalizing cur with
  | nil => simp [selectPresentMode]
  | cons m rest ih =>
    by_cases hm : m = PresentModeKHR.eMailbox
    · subst hm
      simp [selectPresentMode]
    · by_cases hi : m = PresentModeKHR.eImmediate
      · subst hi
        rw [selectPresentMode, if_neg hm, if_pos ⟨hcur, rfl⟩,
          ih _ (by intro hcontra; cases hcontra)]
        simp only [List.mem_cons, hm, false_or]
        by_cases hmb : PresentModeKHR.eMailbox ∈ rest
        · simp [hmb]
        · simp [hmb]
      · rw [selectPresentMode, if_neg hm,
          if_neg (by rintro ⟨-, hc⟩; exact hi hc), ih cur hcur]
        simp only [List.mem_cons]
        have hm' : ¬(PresentModeKHR.eMailbox = m) := fun hc => hm hc.symm
        have hi' : ¬(PresentModeKHR.eImmediate = m) := fun hc => hi hc.symm
        simp [hm', hi']

/-- C9: `VulkanSwapChain::create` chooses FIFO when vsync is requested;
otherwise Mailbox if available, else Immediate if available, else FIFO. -/
theorem present_mode_spec (modes : List PresentModeKHR) :
    swapchainPresentMode modes true = PresentModeKHR.eFifo ∧
    swapchainPresentMode modes false =
      (if PresentModeKHR.eMailbox ∈ modes then PresentModeKHR.eMailbox
       else if PresentModeKHR.eImmediate ∈ modes then
         PresentModeKHR.eImmediate
       else PresentModeKHR.eFifo) := by
  constructor
  · rw [swapchainPresentMode, if_pos rfl]
  · rw [swapchainPresentMode, if_neg (by simp)]
    exact selectPresentMode_eq modes PresentModeKHR.eFifo
      (by intro hcontra; cases hcontra)

/-! ### Vulkan debug report callback (vulkanDebug.cpp) -/

def VK_DEBUG_REPORT_INFORMATION_BIT_EXT : Nat := 1
def VK_DEBUG_REPORT_WARNING_BIT_EXT : Nat := 2
def VK_DEBUG_REPORT_PERFORMANCE_WARNING_BIT_EXT : Nat := 4
def VK_DEBUG_REPORT_ERROR_BIT_EXT : Nat := 8
def VK_DEBUG_REPORT_DEBUG_BIT_EXT : Nat := 16

/-- Function `messageCallback` from vulkanDebug.cpp: builds and prints a log line for
error, warning and performance-warning reports, and always returns VK_FALSE
(`false`).  The result models the pair (message printed to stdout if any,
VkBool32 return value); `objType`, `srcObject`, `location` and `pUserData`
are accepted but unused, as in the source. -/
def messageCallback (flags : Nat) (objType : Nat) (srcObject : Nat)
    (location : Nat) (msgCode : Int) (pLayerPrefix : String)
    (pMsg : String) (pUserData : Nat) : Option String × Bool :=
  if flags &&& VK_DEBUG_REPORT_ERROR_BIT_EXT ≠ 0 then
    (some ("ERROR: " ++ "[" ++ pLayerPrefix ++ "] Code " ++
      toString msgCode ++ " : " ++ pMsg), false)
  else if flags &&& VK_DEBUG_REPORT_WARNING_BIT_EXT ≠ 0 then
    (some ("WARNING: " ++ "[" ++ pLayerPrefix ++ "] Code " ++
      toString msgCode ++ " : " ++ pMsg), false)
  else if flags &&& VK_DEBUG_REPORT_PERFORMANCE_WARNING_BIT_EXT ≠ 0 then
    (some ("PERF: " ++ "[" ++ pLayerPrefix ++ "] Code " ++
      toString msgCode ++ " : " ++ pMsg), false)
  else (none, false)

/-- C10: the debug report callback always returns VK_FALSE (never asks the
validation layer to abort), and when none of the error, warning or
performance-warning bits is set it prints nothing. -/
theorem message_callback_spec (flags objType srcObject location : Nat)
    (msgCode : Int) (pLayerPrefix pMsg : String) (pUserData : Nat) :
    (messageCallback flags objType srcObject location msgCode pLayerPrefix
      pMsg pUserData).2 = false ∧
    (flags &&& VK_DEBUG_REPORT_ERROR_BIT_EXT = 0 →
     flags &&& VK_DEBUG_REPORT_WARNING_BIT_EXT = 0 →
     flags &&& VK_DEBUG_REPORT_PERFORMANCE_WARNING_BIT_EXT = 0 →
     (messageCallback flags objType srcObject location msgCode pLayerPrefix
       pMsg pUserData).1 = none) := by
  constructor
  · unfold messageCallback
    split_ifs <;> rfl
  · intro h1 h2 h3
    unfold messageCallback
    rw [if_neg (by simp [h1]), if_neg (by simp [h2]), if_neg (by simp [h3])]

theorem message_callback_witness :
    (messageCallback 0 1 2 3 4 "layer" "msg" 0).2 = false ∧
    (messageCallback 0 1 2 3 4 "layer" "msg" 0).1 = none :=
  ⟨(message_callback_spec 0 1 2 3 4 "layer" "msg" 0).1,
   (message_callback_spec 0 1 2 3 4 "layer" "msg" 0).2
     (by decide) (by decide) (by decide)⟩

end M3d
